import Mathlib

/-!
Verification development for the kidex file-indexing daemon.

The Rust sources are shallowly embedded:
* `Path`/`PathBuf` values are embedded as `String`s; `Path::components()`
  is embedded by `pathComponents` (the root directory renders as the
  component "/", as `Component::RootDir.as_os_str()` does in Rust).
* `HashMap` values are embedded as association lists with
  HashMap-style `alookup` / `ainsert` (overwrite) / `aerase` operations.
* `inotify::WatchDescriptor` is embedded as `Nat`.
* Loops that follow handle links in the index are embedded with an
  explicit fuel argument; exhausting the fuel is a distinguished outcome
  so that no theorem mistakes nontermination for normal completion.
* Fallible filesystem calls (`File::open`, `Metadata`) are embedded as
  `Option`-valued oracle arguments; `Pattern` (a glob) is embedded as a
  `String → Bool` predicate.
* Rust's Unicode `to_lowercase`/`is_whitespace` are embedded at ASCII
  granularity (`Char.toLower`), which is faithful on every string any
  theorem below evaluates.
-/

/-! ## String helpers (embedding `str` methods used by the sources) -/

/-- `str::starts_with` on strings, via character lists. -/
def strStartsWith (candidate pat : String) : Bool :=
  decide (pat.toList <+: candidate.toList)

/-- `str::contains` (substring containment), via character lists. -/
def strContainsSub (candidate pat : String) : Bool :=
  decide (pat.toList <:+: candidate.toList)

/-- `str::ends_with`, via character lists. -/
def strEndsWith (candidate pat : String) : Bool :=
  decide (pat.toList <:+ candidate.toList)

/-- `str::to_lowercase` (ASCII granularity). -/
def strToLower (s : String) : String :=
  String.mk (s.toList.map Char.toLower)

/-- ASCII whitespace test backing `str::trim`. -/
def isWhiteChar (c : Char) : Bool :=
  c = ' ' || c = '\t' || c = '\n' || c = '\r'

/-- `str::trim`: strip surrounding whitespace. -/
def strTrim (s : String) : String :=
  String.mk (((s.toList.dropWhile isWhiteChar).reverse.dropWhile isWhiteChar).reverse)

/-- `str::trim_matches('/')`: strip leading and trailing slash characters. -/
def trimSlashes (s : String) : String :=
  String.mk (((s.toList.dropWhile (· = '/')).reverse.dropWhile (· = '/')).reverse)

/-! ## Path helpers (embedding `std::path::Path`) -/

/-- Split a character list at `'/'` separators. -/
def splitSlashAux : List Char → List Char → List (List Char)
  | [], acc => [acc.reverse]
  | c :: cs, acc =>
    if c = '/' then acc.reverse :: splitSlashAux cs []
    else splitSlashAux cs (c :: acc)

/-- `Path::components()` of a path rendered as a string: a leading root
directory becomes the component `"/"`, empty and `"."` segments are
normalized away, every other segment is kept in order. -/
def pathComponents (s : String) : List String :=
  let parts := ((splitSlashAux s.toList []).map String.mk).filter
    (fun t => !(t = "" || t = "."))
  if strStartsWith s "/" then "/" :: parts else parts

/-- `Path::file_name().unwrap_or_default()` over a component list: the last
component when it is a normal segment, otherwise the empty string. -/
def fileNameOf (comps : List String) : String :=
  match comps.getLast? with
  | some s => if s = "/" || s = ".." || s = "." then "" else s
  | none => ""

/-- `merge_paths` (kidex-common `helper`): chain the components of two paths.
On the string embedding, an empty first path yields the second unchanged. -/
def mergePaths (path1 path2 : String) : String :=
  if path1 = "" then path2 else path1 ++ "/" ++ path2

/-! ## kidex-common/src/query.rs -/

namespace KidexCommon

inductive CaseOption
  | Match
  | Ignore
  | Smart
deriving DecidableEq

inductive OutputFormat
  | Json
  | List
deriving DecidableEq

inductive FileType
  | All
  | FilesOnly
  | DirOnly
deriving DecidableEq

structure Keyword where
  word : String
  exact_match : Bool
deriving DecidableEq

/-- `Keyword::new`: trim whitespace, then trim surrounding `'/'`. -/
def Keyword.new (word : String) (exact_match : Bool) : Keyword :=
  { exact_match, word := trimSlashes (strTrim word) }

/-- `Keyword::is_at_beginning`. -/
def Keyword.is_at_beginning (k : Keyword) (candidate : String) (case_options : CaseOption) : Bool :=
  match case_options with
  | CaseOption.Match => strStartsWith candidate k.word
  | CaseOption.Ignore => strStartsWith (strToLower candidate) (strToLower k.word)
  | CaseOption.Smart =>
    if strToLower k.word ≠ k.word then
      strStartsWith candidate k.word
    else
      strStartsWith (strToLower candidate) (strToLower k.word)

/-- `Keyword::is_in`. -/
def Keyword.is_in (k : Keyword) (candidate : String) (case_options : CaseOption) : Bool :=
  let p : String × String :=
    match case_options with
    | CaseOption.Match => (candidate, k.word)
    | CaseOption.Ignore => (strToLower candidate, strToLower k.word)
    | CaseOption.Smart =>
      if strToLower k.word ≠ k.word then (candidate, k.word)
      else (strToLower candidate, strToLower k.word)
  if k.exact_match then p.1 = p.2 else strContainsSub p.1 p.2

inductive QueryParameter
  | Type (file_type : FileType)
  | Keyword (keyword : KidexCommon.Keyword)
  | PathKeyword (keyword : KidexCommon.Keyword)
  | DirectParent (keyword : KidexCommon.Keyword)
deriving DecidableEq

structure Query where
  parameters : List QueryParameter
  case_option : CaseOption
deriving DecidableEq

/-- `Query::default`. -/
def Query.default : Query :=
  { parameters := [], case_option := CaseOption.Smart }

structure QueryOptions where
  query : Query
  output_format : OutputFormat
  root_path : Option String
  limit : Option Nat
deriving DecidableEq

/-- `QueryParameter::from_str`. -/
def QueryParameter.from_str (s : String) : QueryParameter :=
  let keyword := Keyword.new s (strEndsWith s "/")
  if s = "/" then QueryParameter.Type FileType.DirOnly
  else if s = "f/" then QueryParameter.Type FileType.FilesOnly
  else if strStartsWith s "//" then QueryParameter.DirectParent keyword
  else if strStartsWith s "/" then QueryParameter.PathKeyword keyword
  else QueryParameter.Keyword keyword

/-- Whether a parameter is a `QueryParameter::Type(_)`. -/
def isTypeParam : QueryParameter → Bool
  | QueryParameter.Type _ => true
  | _ => false

/-- `Query::add_parameter`: a `Type` parameter first retains only the
non-`Type` parameters, then the new parameter is pushed. -/
def Query.add_parameter (q : Query) (param : QueryParameter) : Query :=
  { q with
    parameters :=
      (if isTypeParam param then q.parameters.filter (fun p => !isTypeParam p)
       else q.parameters) ++ [param] }

/-- The `QueryParameter::PathKeyword` component walk inside `calc_score`:
iterate the non-basename components from deepest to shallowest with a
backdepth starting at the given value and decreasing by 4 per step,
accumulating the score and whether any component matched. -/
def pathKeywordLoop (k : Keyword) (co : CaseOption) :
    List String → Int → Int → Bool → Int × Bool
  | [], _, score, in_path => (score, in_path)
  | c :: rest, backdepth, score, in_path =>
    if k.is_in c co then
      pathKeywordLoop k co rest (backdepth - 4) (score + backdepth) true
    else
      pathKeywordLoop k co rest (backdepth - 4) score in_path

/-- The parameter loop of `Query::calc_score`, over the candidate path's
component list `comps`. The basename is `fileNameOf comps`; the
`PathKeyword` walk iterates `components().rev().skip(1)`, that is
`comps.dropLast.reverse`; `DirectParent` inspects
`path.parent().and_then(|p| p.file_name()).unwrap_or("")`, that is
`fileNameOf comps.dropLast`. -/
def scoreLoop (co : CaseOption) (comps : List String)
    (is_dir : Bool) : List QueryParameter → Int → Int
  | [], score => score
  | param :: rest, score =>
    match param with
    | QueryParameter.Type file_type =>
      match file_type with
      | FileType.FilesOnly =>
        if is_dir then -8888 else scoreLoop co comps is_dir rest score
      | FileType.DirOnly =>
        if !is_dir then -8888 else scoreLoop co comps is_dir rest score
      | FileType.All => scoreLoop co comps is_dir rest score
    | QueryParameter.Keyword keyword =>
      if !keyword.exact_match && keyword.is_at_beginning (fileNameOf comps) co then
        scoreLoop co comps is_dir rest (score + 50)
      else if keyword.is_in (fileNameOf comps) co then
        scoreLoop co comps is_dir rest (score + 10)
      else
        -2222
    | QueryParameter.PathKeyword keyword =>
      match pathKeywordLoop keyword co (comps.dropLast.reverse) 20 score false with
      | (score2, in_path) =>
        if !in_path then -5555 else scoreLoop co comps is_dir rest score2
    | QueryParameter.DirectParent keyword =>
      let parent_path_name := fileNameOf comps.dropLast
      if keyword.is_in parent_path_name co then
        scoreLoop co comps is_dir rest (score + 1)
      else
        -9999

/-- `Query::calc_score`: apply each parameter in declared order to the
candidate path (embedded as a string), starting from score 0. -/
def Query.calc_score (q : Query) (path : String) (is_dir : Bool) : Int :=
  scoreLoop q.case_option (pathComponents path) is_dir q.parameters 0

end KidexCommon


/-! ## Association-list embedding of `HashMap` -/

/-- HashMap lookup on an association-list embedding. -/
def alookup {α β : Type} [DecidableEq α] : List (α × β) → α → Option β
  | [], _ => none
  | (k, v) :: rest, h => if k = h then some v else alookup rest h

/-- HashMap `insert`, overwriting the entry of an existing key. -/
def ainsert {α β : Type} [DecidableEq α] : List (α × β) → α → β → List (α × β)
  | [], k, v => [(k, v)]
  | (k1, v1) :: rest, k, v =>
    if k1 = k then (k, v) :: rest else (k1, v1) :: ainsert rest k v

/-- HashMap `remove`, dropping the entry of a key. -/
def aerase {α β : Type} [DecidableEq α] : List (α × β) → α → List (α × β)
  | [], _ => []
  | (k1, v1) :: rest, k => if k1 = k then rest else (k1, v1) :: aerase rest k

/-! ## kidex-common/src/lib.rs -/

namespace KidexCommon

structure IndexEntry where
  path : String
  directory : Bool
deriving DecidableEq

inductive IpcResponse
  | Success
  | NotFound
  | Index (entries : List IndexEntry)
deriving DecidableEq

end KidexCommon

/-! ## Sorting scored entries (`sort_by_key` on the score) -/

/-- Ascending comparison on the score of a scored entry. -/
def scoreLE (a b : Int × KidexCommon.IndexEntry) : Prop := a.1 ≤ b.1

instance : DecidableRel scoreLE := fun a b => inferInstanceAs (Decidable (a.1 ≤ b.1))

instance : IsTotal (Int × KidexCommon.IndexEntry) scoreLE := ⟨fun a b => Int.le_total a.1 b.1⟩

instance : IsTrans (Int × KidexCommon.IndexEntry) scoreLE := ⟨fun _ _ _ h1 h2 => le_trans h1 h2⟩

/-- Rust's stable `sort_by_key` on the score, embedded as insertion sort
(any stable sort by a total preorder computes this same list). -/
def sortByScore (l : List (Int × KidexCommon.IndexEntry)) : List (Int × KidexCommon.IndexEntry) :=
  List.insertionSort scoreLE l

/-! ## kidex/src/index.rs and kidex/src/main.rs -/

namespace KidexServer

open KidexCommon

/-- `WatchDir` configuration; glob `Pattern`s are embedded as predicates on
the rendered path. -/
structure WatchDir where
  path : String
  ignored : List (String → Bool)
  recurse : Bool

/-- `ChildIndex`; the watch descriptor is embedded as `Nat`. -/
inductive ChildIndex
  | File
  | Directory (descriptor : Option Nat)

/-- `DirectoryIndex`: one node of the index, keyed by its watch descriptor
in the surrounding association list. -/
structure DirectoryIndex where
  path : String
  children : List (String × ChildIndex)
  watch_dir : WatchDir
  parent : Option Nat

/-- `matches!(child, ChildIndex::Directory {..})`. -/
def isDirChild : ChildIndex → Bool
  | ChildIndex.Directory _ => true
  | ChildIndex.File => false

/-- The loop of `get_path`: push the node's `path` segment, follow the
`parent` link. A missing handle ends the loop with the segments collected
so far; `none` is returned only when the fuel runs out first. -/
def getPathGo (inner : List (Nat × DirectoryIndex)) :
    Nat → Option Nat → List String → Option (List String)
  | _, none, paths => some paths
  | 0, some _, _ => none
  | fuel + 1, some desc, paths =>
    match alookup inner desc with
    | none => some paths
    | some dir => getPathGo inner fuel dir.parent (paths ++ [dir.path])

/-- `get_path`: the collected segments, reversed and joined with "/". -/
def get_path (inner : List (Nat × DirectoryIndex)) (fuel : Nat) (desc : Nat) : Option String :=
  (getPathGo inner fuel (some desc) []).map (fun ps => String.intercalate "/" ps.reverse)

/-- `get_path`, defaulting to the empty path on fuel exhaustion (every
theorem below supplies sufficient fuel for the chains it resolves). -/
def getPathD (inner : List (Nat × DirectoryIndex)) (fuel : Nat) (desc : Nat) : String :=
  (get_path inner fuel desc).getD ""

/-- Follows the words of claim C8: the sequence of path segments obtained
by repeatedly following parent links from a handle, deepest segment first;
a handle absent from the index ends the sequence early; `none` only on
fuel exhaustion. -/
def specCollectSegs (inner : List (Nat × DirectoryIndex)) : Nat → Nat → Option (List String)
  | 0, _ => none
  | fuel + 1, h =>
    match alookup inner h with
    | none => some []
    | some dir =>
      match dir.parent with
      | none => some [dir.path]
      | some par => (specCollectSegs inner fuel par).map (fun segs => dir.path :: segs)

/-- Result of the fuelled `traverse` loop; `panicked` embeds the
`.unwrap()` on a handle missing from the index. -/
inductive TravResult
  | panicked
  | fuelOut
  | ok (slice : List (Nat × DirectoryIndex))

/-- The watch descriptors among a node's `Directory { Some(_) }` children. -/
def childDescriptors (dir : DirectoryIndex) : List Nat :=
  dir.children.filterMap (fun pc =>
    match pc.2 with
    | ChildIndex.Directory (some d) => some d
    | _ => none)

/-- The work-queue loop of `traverse`. The end of the Rust `Vec` is the
head of the list: `pop()` takes the head and `extend` prepends the new
descriptors in reverse. The visited slice is a HashMap, so insertion
overwrites. -/
def traverseGo (inner : List (Nat × DirectoryIndex)) :
    Nat → List Nat → List (Nat × DirectoryIndex) → TravResult
  | _, [], slice => TravResult.ok slice
  | 0, _ :: _, _ => TravResult.fuelOut
  | fuel + 1, desc :: queue, slice =>
    match alookup inner desc with
    | none => TravResult.panicked
    | some dir =>
      traverseGo inner fuel ((childDescriptors dir).reverse ++ queue) (ainsert slice desc dir)

/-- The removal loop of `remove_index`: for each visited pair,
`assert!(self.inner.remove(&desc).is_some())`; `none` embeds a failed
assertion. -/
def removeAll : List (Nat × DirectoryIndex) → List (Nat × DirectoryIndex) →
    Option (List (Nat × DirectoryIndex))
  | inner, [] => some inner
  | inner, (desc, _) :: rest =>
    match alookup inner desc with
    | some _ => removeAll (aerase inner desc) rest
    | none => none

/-- The effect of `children.remove(path)` on the node at `wd`. -/
def eraseChild (inner : List (Nat × DirectoryIndex)) (wd : Nat) (path : String) :
    List (Nat × DirectoryIndex) :=
  match alookup inner wd with
  | none => inner
  | some dir => ainsert inner wd { dir with children := aerase dir.children path }

/-- Result of `remove_index`; `panicked` embeds any failed `.unwrap()` or
`assert!`. -/
inductive RemoveResult
  | panicked
  | fuelOut
  | ok (inner : List (Nat × DirectoryIndex))

/-- `remove_index`: remove the child at `path` under `wd`; when the child
was a watched directory, traverse the subtree rooted at its descriptor and
remove every visited handle from the index (checked), then re-check that
the child is gone from `wd`'s children. -/
def remove_index (inner : List (Nat × DirectoryIndex)) (fuel : Nat) (wd : Nat)
    (path : String) : RemoveResult :=
  match alookup inner wd with
  | none => RemoveResult.panicked
  | some dir =>
    match alookup dir.children path with
    | none => RemoveResult.ok (eraseChild inner wd path)
    | some child =>
      let inner1 := eraseChild inner wd path
      let step2 : RemoveResult :=
        match child with
        | ChildIndex.Directory (some d) =>
          match traverseGo inner1 fuel [d] [] with
          | TravResult.panicked => RemoveResult.panicked
          | TravResult.fuelOut => RemoveResult.fuelOut
          | TravResult.ok slice =>
            match removeAll inner1 slice with
            | none => RemoveResult.panicked
            | some inner2 => RemoveResult.ok inner2
        | _ => RemoveResult.ok inner1
      match step2 with
      | RemoveResult.ok inner2 =>
        match alookup inner2 wd with
        | none => RemoveResult.panicked
        | some dir2 =>
          match alookup dir2.children path with
          | some _ => RemoveResult.panicked
          | none => RemoveResult.ok inner2
      | r => r

/-- Whether a child's watch descriptor, when present, is in the index. -/
def childOk (inner : List (Nat × DirectoryIndex)) : ChildIndex → Bool
  | ChildIndex.Directory (some d) => (alookup inner d).isSome
  | _ => true

/-- Invariant 2 of the data model: every `Directory { watch: Some(h) }`
child anywhere in the index has `h` present in the index. -/
def invariantB (inner : List (Nat × DirectoryIndex)) : Bool :=
  inner.all (fun nd => nd.2.children.all (fun pc => childOk inner pc.2))

/-- The file type reported by `Metadata::file_type`. -/
inductive Filetype
  | dir
  | file
  | other

/-- An opened `File`; `metadata` is `none` when `Metadata` retrieval
fails (the source calls `.unwrap()` on it). -/
structure FileHandle where
  metadata : Option Filetype

/-- Result of `create_index`; `panicked` embeds a failed `.unwrap()`. -/
inductive CreateResult
  | panicked
  | ok (inner : List (Nat × DirectoryIndex))

/-- `create_index`. Outcomes of the effectful calls are oracle arguments:
`openResult` is the outcome of `File::open(full_path)` (`none` is an open
error, which is logged and ends the call) and `indexDirResult` the outcome
of the `self.index_dir(...)` call of the recursive-directory branch
(`Except.error` an io error, `Except.ok none` an ignored path — both end
the call; `Except.ok (some _)` carries the new child and the freshly
indexed nodes that `extend` merges into the index). -/
def create_index (inner : List (Nat × DirectoryIndex)) (fuel : Nat) (wd : Nat)
    (path : String) (openResult : Option FileHandle)
    (indexDirResult : Except String (Option (ChildIndex × List (Nat × DirectoryIndex)))) :
    CreateResult :=
  let full_path := mergePaths (getPathD inner fuel wd) path
  match alookup inner wd with
  | none => CreateResult.panicked
  | some dir =>
    if dir.watch_dir.ignored.any (fun pat => pat full_path) then
      CreateResult.ok inner
    else
      match openResult with
      | none => CreateResult.ok inner
      | some file =>
        match file.metadata with
        | none => CreateResult.panicked
        | some ft =>
          let childAndInner : Option (ChildIndex × List (Nat × DirectoryIndex)) :=
            match ft with
            | Filetype.dir =>
              if dir.watch_dir.recurse then
                match indexDirResult with
                | Except.ok (some (child, index)) =>
                  some (child, index.foldl (fun acc kv => ainsert acc kv.1 kv.2) inner)
                | Except.ok none => none
                | Except.error _ => none
              else some (ChildIndex.Directory none, inner)
            | Filetype.file => some (ChildIndex.File, inner)
            | Filetype.other => none
          match childAndInner with
          | none => CreateResult.ok inner
          | some (child, inner2) =>
            match alookup inner2 wd with
            | none => CreateResult.panicked
            | some dir2 =>
              CreateResult.ok
                (ainsert inner2 wd { dir2 with children := ainsert dir2.children path child })

/-- `query` (kidex/src/query.rs, the backend search). In the source the
call to the scorer is commented out and `score` is the literal `0`, so
every child passes the `score >= 0` filter; the collected entries are then
sorted by their (all-zero) scores. -/
def query (inner : List (Nat × DirectoryIndex)) (fuel : Nat) (_opts : QueryOptions) :
    List IndexEntry :=
  let res : List (Int × IndexEntry) := inner.flatMap (fun nd =>
    let parent_path := getPathD inner fuel nd.1
    nd.2.children.filterMap (fun pc =>
      let full_path := mergePaths parent_path pc.1
      let score : Int := 0
      if score ≥ 0 then
        some (score, { path := full_path, directory := isDirChild pc.2 })
      else none))
  (sortByScore res).map Prod.snd

/-- Result of the `GetIndex(Some(path))` handler; `panicked`/`fuelOut`
propagate from the inner `traverse`. -/
inductive GetIndexResult
  | panicked
  | fuelOut
  | resp (r : IpcResponse)
deriving DecidableEq

/-- The entries contributed by one traversed node in the pathed `GetIndex`
branch: each child becomes an `IndexEntry` chaining the node's resolved
path with the child's segment. -/
def nodeEntries (inner : List (Nat × DirectoryIndex)) (fuel : Nat)
    (nd : Nat × DirectoryIndex) : List IndexEntry :=
  nd.2.children.map (fun pc =>
    { path := mergePaths (getPathD inner fuel nd.1) pc.1, directory := isDirChild pc.2 })

/-- The `GetIndex(Some(path))` branch of `ipc_task`: find a node whose
`path` field equals the requested path (for a configured root that field
is the configured absolute path); reply `NotFound` when none matches,
otherwise traverse the node and return an entry for every child of every
visited node. -/
def getIndexPathed (inner : List (Nat × DirectoryIndex)) (fuel : Nat) (p : String) :
    GetIndexResult :=
  match inner.find? (fun nd => nd.2.path == p) with
  | none => GetIndexResult.resp IpcResponse.NotFound
  | some (desc, _) =>
    match traverseGo inner fuel [desc] [] with
    | TravResult.panicked => GetIndexResult.panicked
    | TravResult.fuelOut => GetIndexResult.fuelOut
    | TravResult.ok slice =>
      GetIndexResult.resp (IpcResponse.Index (slice.flatMap (nodeEntries inner fuel)))

end KidexServer

/-! ## kidex-client/src/main.rs -/

namespace KidexClient

open KidexCommon

/-- Modelled from the spec: the insertion step of the running top-N list —
insert "at the position preserving descending order", after equal-scored
entries so that input order is retained (stability). -/
def insertDescStable (p : Int × IndexEntry) :
    List (Int × IndexEntry) → List (Int × IndexEntry)
  | [] => [p]
  | q :: rest => if p.1 > q.1 then p :: q :: rest else q :: insertDescStable p rest

/-- Modelled from the spec: "sort descending by score (stable)". -/
def sortDescStable (xs : List (Int × IndexEntry)) : List (Int × IndexEntry) :=
  xs.foldl (fun acc p => insertDescStable p acc) []

/-- Modelled from the spec: `pick_top_entries`, which `filter` calls but
which is absent from the sources. "If the number of entries ≤ N: sort
descending by score (stable) and return. Otherwise: maintain a running
list of at most N top entries in descending order. For each incoming pair,
if its score is less than the current worst (the N-th) score, discard;
otherwise insert at the position preserving descending order; if the list
grows beyond N, drop the tail." -/
def pick_top_entries (xs : List (Int × IndexEntry)) (limit : Nat) :
    List (Int × IndexEntry) :=
  if xs.length ≤ limit then sortDescStable xs
  else xs.foldl (fun acc p =>
    if acc.length = limit ∧ p.1 < ((acc.getLast?).map Prod.fst).getD p.1 then acc
    else (insertDescStable p acc).take limit) []

/-- `filter` (the client-side search): score each entry, keep strictly
positive scores; with a limit, pick the top entries and reverse the list;
without one, sort ascending by score. -/
def filter (index : List IndexEntry) (query_opts : QueryOptions) : List IndexEntry :=
  let filtered : List (Int × IndexEntry) := index.filterMap (fun entry =>
    let score := query_opts.query.calc_score entry.path entry.directory
    if score > 0 then some (score, entry) else none)
  match query_opts.limit with
  | some limit => ((pick_top_entries filtered limit).reverse).map Prod.snd
  | none => (sortByScore filtered).map Prod.snd

end KidexClient

/-! ## Concrete index states used by the closed theorems -/

/-- A watch-dir configuration with no ignore patterns. -/
def witWatch : KidexServer.WatchDir := ⟨"/r", [], true⟩

/-- Root node of the two-node index: configured path "/r", one watched
subdirectory "sub" and one file child. -/
def witNode0 : KidexServer.DirectoryIndex :=
  ⟨"/r", [("sub", KidexServer.ChildIndex.Directory (some 1)), ("f.txt", KidexServer.ChildIndex.File)],
    witWatch, none⟩

/-- Subdirectory node "sub" with one file child. -/
def witNode1 : KidexServer.DirectoryIndex :=
  ⟨"sub", [("g.txt", KidexServer.ChildIndex.File)], witWatch, some 0⟩

/-- A two-node index: a root and a watched subdirectory. -/
def witInner : List (Nat × KidexServer.DirectoryIndex) := [(0, witNode0), (1, witNode1)]

/-- A one-node index: a root with a single file child. -/
def witInnerFile : List (Nat × KidexServer.DirectoryIndex) :=
  [(0, ⟨"/r", [("a.txt", KidexServer.ChildIndex.File)], witWatch, none⟩)]

/-- Query options carrying a directories-only type constraint. -/
def witOptsDirOnly : KidexCommon.QueryOptions :=
  ⟨⟨[KidexCommon.QueryParameter.Type KidexCommon.FileType.DirOnly], KidexCommon.CaseOption.Smart⟩,
    KidexCommon.OutputFormat.Json, none, none⟩

/-! ## Lemmas about the scorer and `add_parameter` -/

namespace KidexCommon

/-- The `PathKeyword` walk starting at backdepth `20 - 4·i0` adds
`20 - 4·i` for every matching component at offset `i` counted from `i0`,
and reports whether any component matched at all. -/
lemma pathKeywordLoop_spec (k : Keyword) (c : CaseOption) :
    ∀ (l : List String) (i0 : Nat) (s : Int) (flag : Bool),
      pathKeywordLoop k c l (20 - 4 * (i0 : Int)) s flag =
        (s + (((l.enumFrom i0).filter (fun ic => k.is_in ic.2 c)).map
            (fun ic => (20 : Int) - 4 * (ic.1 : Int))).sum,
         flag || l.any (fun x => k.is_in x c))
  | [], i0, s, flag => by simp [pathKeywordLoop, List.enumFrom]
  | x :: rest, i0, s, flag => by
    have hstep : (20 : Int) - 4 * (i0 : Int) - 4 = 20 - 4 * ((i0 + 1 : Nat) : Int) := by
      push_cast; ring
    have hrec1 := pathKeywordLoop_spec k c rest (i0 + 1) (s + (20 - 4 * (i0 : Int))) true
    have hrec2 := pathKeywordLoop_spec k c rest (i0 + 1) s flag
    by_cases hx : k.is_in x c
    · simp only [pathKeywordLoop, hx, if_true, hstep, hrec1, List.enumFrom, List.filter_cons,
        List.map_cons, List.sum_cons, List.any_cons, Bool.true_or, Bool.or_true,
        Prod.mk.injEq]
      exact ⟨by ring, by simp⟩
    · simp only [pathKeywordLoop, hx, if_false, hstep, hrec2, List.enumFrom, List.filter_cons,
        List.map_cons, List.sum_cons, List.any_cons, Bool.false_or, Prod.mk.injEq]
      rfl

/-- One `add_parameter` call keeps the number of `Type` parameters at most one. -/
lemma add_parameter_typeCount (q : Query) (p : QueryParameter)
    (h : (q.parameters.filter isTypeParam).length ≤ 1) :
    (((q.add_parameter p).parameters.filter isTypeParam).length ≤ 1) := by
  by_cases hp : isTypeParam p
  · simp [Query.add_parameter, hp, List.filter_append, List.filter_filter]
  · simpa [Query.add_parameter, hp, List.filter_append] using h

/-- Folding `add_parameter` preserves "at most one `Type` parameter". -/
lemma foldl_add_parameter_typeCount :
    ∀ (ps : List QueryParameter) (q : Query),
      (q.parameters.filter isTypeParam).length ≤ 1 →
      (((ps.foldl Query.add_parameter q).parameters.filter isTypeParam).length ≤ 1)
  | [], _, h => h
  | p :: ps, q, h =>
    foldl_add_parameter_typeCount ps (q.add_parameter p) (add_parameter_typeCount q p h)

end KidexCommon

open KidexCommon

/-- Claim C4: for every non-exact basename keyword and candidate path, the
basename parameter scores +50 when the basename starts with the keyword,
else +10 when the basename contains it, else the scorer returns -2222
immediately; in the literal scenario with query token "foo",
`/tmp/a/b/foo.txt` scores 50 while `/tmp/a/bar.txt` and `/tmp/c/foo/baz.md`
are eliminated at -2222. -/
theorem c4_basename_keyword_scoring :
    (∀ (w : String) (c : CaseOption) (p : String) (d : Bool),
      Query.calc_score ⟨[QueryParameter.Keyword ⟨w, false⟩], c⟩ p d =
        if Keyword.is_at_beginning ⟨w, false⟩ (fileNameOf (pathComponents p)) c then 50
        else if Keyword.is_in ⟨w, false⟩ (fileNameOf (pathComponents p)) c then 10
        else -2222) ∧
    Query.calc_score ⟨[QueryParameter.from_str "foo"], CaseOption.Smart⟩ "/tmp/a/b/foo.txt" false = 50 ∧
    Query.calc_score ⟨[QueryParameter.from_str "foo"], CaseOption.Smart⟩ "/tmp/a/bar.txt" false = -2222 ∧
    Query.calc_score ⟨[QueryParameter.from_str "foo"], CaseOption.Smart⟩ "/tmp/c/foo/baz.md" false = -2222 := by
  refine ⟨?_, by decide, by decide, by decide⟩
  intro w c p d
  simp only [Query.calc_score, scoreLoop, Bool.not_false, Bool.true_and]
  by_cases hb : Keyword.is_at_beginning ⟨w, false⟩ (fileNameOf (pathComponents p)) c
  · simp [hb, scoreLoop]
  · by_cases hi : Keyword.is_in ⟨w, false⟩ (fileNameOf (pathComponents p)) c
    · simp [hb, hi, scoreLoop]
    · simp [hb, hi]

/-- Claim C5: for every any-path keyword, the scorer walks the non-basename
components from deepest to shallowest, adding backdepth `20 - 4·i` for the
matching component at depth offset `i`, and returns -5555 when no component
matched; with parsed tokens ["/src", "rs"], `/root/src/main.rs` scores 30
and `/root/src/lib/util.rs` scores 26. -/
theorem c5_path_keyword_scoring :
    (∀ (k : Keyword) (c : CaseOption) (p : String) (d : Bool),
      Query.calc_score ⟨[QueryParameter.PathKeyword k], c⟩ p d =
        (if ((pathComponents p).dropLast.reverse).any (fun x => k.is_in x c) then
          (((((pathComponents p).dropLast.reverse).enum.filter
              (fun ic => k.is_in ic.2 c)).map (fun ic => (20 : Int) - 4 * (ic.1 : Int))).sum)
        else -5555)) ∧
    Query.calc_score ⟨[QueryParameter.from_str "/src", QueryParameter.from_str "rs"],
      CaseOption.Smart⟩ "/root/src/main.rs" false = 30 ∧
    Query.calc_score ⟨[QueryParameter.from_str "/src", QueryParameter.from_str "rs"],
      CaseOption.Smart⟩ "/root/src/lib/util.rs" false = 26 := by
  refine ⟨?_, by decide, by decide⟩
  intro k c p d
  have h20 : (20 : Int) = 20 - 4 * ((0 : Nat) : Int) := by norm_num
  simp only [Query.calc_score, scoreLoop]
  rw [h20, pathKeywordLoop_spec k c ((pathComponents p).dropLast.reverse) 0 0 false]
  simp only [Bool.false_or, List.enum]
  by_cases hany : ((pathComponents p).dropLast.reverse).any (fun x => k.is_in x c)
  · simp [hany, scoreLoop]
  · simp [hany, scoreLoop]

/-- Claim C10: every sequence of `add_parameter` calls starting from the
default query leaves at most one `Type` parameter in the list: adding a
`Type` parameter removes every previously added `Type` parameter before
being appended, while parameters of the other three kinds are appended
without removing anything. -/
theorem c10_add_parameter_type_unique :
    (∀ ps : List QueryParameter,
      (((ps.foldl Query.add_parameter Query.default).parameters.filter isTypeParam).length ≤ 1)) ∧
    (∀ (q : Query) (ft : FileType),
      (q.add_parameter (QueryParameter.Type ft)).parameters =
        q.parameters.filter (fun p => !isTypeParam p) ++ [QueryParameter.Type ft]) ∧
    (∀ (q : Query) (k : Keyword),
      (q.add_parameter (QueryParameter.Keyword k)).parameters =
        q.parameters ++ [QueryParameter.Keyword k]) ∧
    (∀ (q : Query) (k : Keyword),
      (q.add_parameter (QueryParameter.PathKeyword k)).parameters =
        q.parameters ++ [QueryParameter.PathKeyword k]) ∧
    (∀ (q : Query) (k : Keyword),
      (q.add_parameter (QueryParameter.DirectParent k)).parameters =
        q.parameters ++ [QueryParameter.DirectParent k]) := by
  refine ⟨?_, ?_, ?_, ?_, ?_⟩
  · intro ps
    exact foldl_add_parameter_typeCount ps Query.default (by simp [Query.default])
  · intro q ft; simp [Query.add_parameter, isTypeParam]
  · intro q k; simp [Query.add_parameter, isTypeParam]
  · intro q k; simp [Query.add_parameter, isTypeParam]
  · intro q k; simp [Query.add_parameter, isTypeParam]

/-! ## Path resolution (claim C8) -/

namespace KidexServer

/-- The accumulator loop of `get_path` computes the claim-side segment
sequence appended to the accumulator. -/
lemma getPathGo_spec (inner : List (Nat × DirectoryIndex)) :
    ∀ (fuel : Nat) (h : Nat) (acc : List String),
      getPathGo inner fuel (some h) acc =
        (specCollectSegs inner fuel h).map (fun segs => acc ++ segs)
  | 0, h, acc => rfl
  | fuel + 1, h, acc => by
    cases hl : alookup inner h with
    | none => simp [getPathGo, specCollectSegs, hl]
    | some dir =>
      cases hp : dir.parent with
      | none => simp [getPathGo, specCollectSegs, hl, hp]
      | some par =>
        have ih := getPathGo_spec inner fuel par (acc ++ [dir.path])
        simp only [getPathGo, specCollectSegs, hl, hp, ih]
        cases specCollectSegs inner fuel par <;> simp

end KidexServer

/-- Claim C8: resolving a handle collects path segments by repeatedly
following parent links, then reverses the sequence and joins it with the
path separator; a handle absent from the index terminates the resolution
early with the prefix accumulated so far (an exhausted fuel is the `none`
outcome on both sides). -/
theorem c8_get_path_resolution :
    ∀ (inner : List (Nat × KidexServer.DirectoryIndex)) (fuel : Nat) (h : Nat),
      KidexServer.get_path inner fuel h =
        (KidexServer.specCollectSegs inner fuel h).map
          (fun segs => String.intercalate "/" segs.reverse) := by
  intro inner fuel h
  unfold KidexServer.get_path
  rw [KidexServer.getPathGo_spec]
  cases KidexServer.specCollectSegs inner fuel h <;> simp

/-! ## The backend query path (claim C1) -/

/-- Claim C1 (code bug): the backend `query` does not apply the scoring
function — the call is commented out in the source and the score is the
literal 0 — so a file child is returned even under a directories-only
query, whose scorer value at that entry is the eliminating -8888. -/
theorem c1_server_query_scoring_disabled :
    KidexServer.query witInnerFile 3 witOptsDirOnly = [⟨"/r/a.txt", false⟩] ∧
    witOptsDirOnly.query.calc_score "/r/a.txt" false = -8888 := by
  exact ⟨by decide, by decide⟩

/-! ## Zero-parameter queries (claim C2) -/

/-- `filterMap` of an everywhere-`some` function keeps every element. -/
lemma length_filterMap_some {α β : Type} (f : α → β) (l : List α) :
    (l.filterMap (fun a => some (f a))).length = l.length := by
  induction l with
  | nil => rfl
  | cons a t ih => simp [List.filterMap_cons, ih]

/-- `filterMap` of the constant `none` drops every element. -/
lemma filterMap_const_none {α β : Type} (l : List α) :
    l.filterMap (fun _ => (none : Option β)) = [] := by
  induction l with
  | nil => rfl
  | cons a t ih => simp [List.filterMap_cons, ih]

/-- Claim C2: a query with an empty parameter list scores 0 on every path
and directory flag; the backend `query` keeps every child of every indexed
node (its filter is `score >= 0`), while the client-side `filter` (whose
filter is `score > 0`) drops every entry. -/
theorem c2_empty_query_scores_zero :
    (∀ (p : String) (d : Bool) (c : CaseOption),
      Query.calc_score ⟨[], c⟩ p d = 0) ∧
    (∀ (inner : List (Nat × KidexServer.DirectoryIndex)) (fuel : Nat) (opts : QueryOptions),
      (KidexServer.query inner fuel opts).length =
        (inner.map (fun nd => nd.2.children.length)).sum) ∧
    (∀ (es : List IndexEntry) (c : CaseOption) (fmt : OutputFormat)
        (root : Option String) (lim : Option Nat),
      KidexClient.filter es ⟨⟨[], c⟩, fmt, root, lim⟩ = []) := by
  refine ⟨?_, ?_, ?_⟩
  · intro p d c; rfl
  · intro inner fuel opts
    simp only [KidexServer.query, sortByScore, List.length_map,
      (List.perm_insertionSort scoreLE _).length_eq]
    rw [List.length_flatMap]
    congr 1
    apply List.map_congr_left
    intro nd _
    simp [length_filterMap_some]
  · intro es c fmt root lim
    have hscore : ∀ e : IndexEntry,
        Query.calc_score ⟨[], c⟩ e.path e.directory = 0 := fun _ => rfl
    simp only [KidexClient.filter]
    have hfm : es.filterMap (fun entry =>
        if Query.calc_score ⟨[], c⟩ entry.path entry.directory > 0 then
          some (Query.calc_score ⟨[], c⟩ entry.path entry.directory, entry)
        else none) = [] := by
      have hnone : ∀ entry : IndexEntry,
          (if Query.calc_score ⟨[], c⟩ entry.path entry.directory > 0 then
            some (Query.calc_score ⟨[], c⟩ entry.path entry.directory, entry)
          else none) = none := by
        intro entry; rw [hscore]; norm_num
      calc es.filterMap _ = es.filterMap (fun _ => none) := by
            exact List.filterMap_congr (fun e _ => hnone e)
        _ = [] := filterMap_const_none es
    rw [hfm]
    cases lim with
    | none => simp [sortByScore, List.insertionSort]
    | some n => simp [KidexClient.pick_top_entries, KidexClient.sortDescStable]

/-! ## Incremental create under a failing stat (claim C7) -/

/-- Claim C7, amended part: when opening the newly created full path fails
(the `File::open` error that the source logs), `create_index` returns the
index unchanged and does not panic. -/
theorem c7_amended_open_error_no_mutation :
    ∀ (inner : List (Nat × KidexServer.DirectoryIndex)) (fuel wd : Nat) (path : String)
      (idr : Except String (Option (KidexServer.ChildIndex × List (Nat × KidexServer.DirectoryIndex))))
      (dir : KidexServer.DirectoryIndex),
      alookup inner wd = some dir →
      KidexServer.create_index inner fuel wd path none idr = KidexServer.CreateResult.ok inner := by
  intro inner fuel wd path idr dir h
  simp only [KidexServer.create_index, h]
  split <;> rfl

/-- Claim C7, counterexample to the claim as stated: when the open succeeds
but retrieving the metadata (the step that actually determines the file
type) fails, `create_index` hits `file.metadata().unwrap()` and panics
instead of logging and returning. -/
theorem c7_counterexample_metadata_panic :
    KidexServer.create_index witInnerFile 3 0 "x" (some ⟨none⟩) (Except.error "e") =
      KidexServer.CreateResult.panicked := by
  rfl

/-- Witness for the amended C7 theorem at a concrete index. -/
theorem c7_witness :
    alookup witInnerFile 0 =
      some ⟨"/r", [("a.txt", KidexServer.ChildIndex.File)], witWatch, none⟩ ∧
    KidexServer.create_index witInnerFile 3 0 "x" none (Except.error "e") =
      KidexServer.CreateResult.ok witInnerFile :=
  ⟨rfl, c7_amended_open_error_no_mutation witInnerFile 3 0 "x" (Except.error "e") _ rfl⟩

/-- A successful `alookup` yields an element of the list. -/
lemma alookup_mem {α β : Type} [DecidableEq α] :
    ∀ {l : List (α × β)} {k : α} {v : β}, alookup l k = some v → (k, v) ∈ l
  | [], k, v, h => by simp [alookup] at h
  | (k1, v1) :: rest, k, v, h => by
    by_cases hk : k1 = k
    · subst hk
      have hv : v1 = v := by simpa [alookup] using h
      subst hv
      exact List.mem_cons_self _ _
    · simp only [alookup, if_neg hk] at h
      exact List.mem_cons_of_mem _ (alookup_mem h)

/-- Lookup after an overwriting insert. -/
lemma alookup_ainsert {α β : Type} [DecidableEq α] :
    ∀ (l : List (α × β)) (k : α) (v : β) (j : α),
      alookup (ainsert l k v) j = if j = k then some v else alookup l j
  | [], k, v, j => by
    by_cases h : j = k
    · subst h; simp [ainsert, alookup]
    · have h2 : ¬ k = j := fun hh => h hh.symm
      simp [ainsert, alookup, h, h2]
  | (k1, v1) :: rest, k, v, j => by
    by_cases h1 : k1 = k
    · subst h1
      by_cases hj : j = k1
      · subst hj; simp [ainsert, alookup]
      · have h2 : ¬ k1 = j := fun hh => hj hh.symm
        simp [ainsert, alookup, hj, h2]
    · by_cases hj : k1 = j
      · have h2 : ¬ j = k := fun hh => h1 (hj.trans hh)
        simp [ainsert, alookup, h1, hj, h2]
      · simp [ainsert, alookup, h1, hj, alookup_ainsert rest k v j]

/-- Erasing one key leaves lookups of other keys unchanged. -/
lemma alookup_aerase_ne {α β : Type} [DecidableEq α] :
    ∀ (l : List (α × β)) (k j : α), j ≠ k →
      alookup (aerase l k) j = alookup l j
  | [], k, j, h => rfl
  | (k1, v1) :: rest, k, j, hne => by
    by_cases h1 : k1 = k
    · subst h1
      have : ¬ k1 = j := fun hh => hne (hh.symm)
      simp [aerase, alookup, this]
    · by_cases h2 : k1 = j
      · simp [aerase, alookup, h1, h2, hne]
      · simp [aerase, alookup, h1, h2, alookup_aerase_ne rest k j hne]

/-- Members of an insert come from the inserted pair or the old list. -/
lemma mem_ainsert {α β : Type} [DecidableEq α] :
    ∀ {l : List (α × β)} {k : α} {v : β} {x : α × β},
      x ∈ ainsert l k v → x = (k, v) ∨ x ∈ l
  | [], k, v, x, h => by simp [ainsert] at h; exact Or.inl h
  | (k1, v1) :: rest, k, v, x, h => by
    by_cases h1 : k1 = k
    · subst h1
      simp only [ainsert, if_pos rfl] at h
      rcases List.mem_cons.mp h with h | h
      · exact Or.inl h
      · exact Or.inr (List.mem_cons_of_mem _ h)
    · simp only [ainsert, if_neg h1] at h
      rcases List.mem_cons.mp h with h | h
      · exact Or.inr (by simp [h])
      · rcases mem_ainsert h with h | h
        · exact Or.inl h
        · exact Or.inr (List.mem_cons_of_mem _ h)

/-- Members of an erase are members of the old list. -/
lemma mem_aerase {α β : Type} [DecidableEq α] :
    ∀ {l : List (α × β)} {k : α} {x : α × β}, x ∈ aerase l k → x ∈ l
  | [], k, x, h => by simp [aerase] at h
  | (k1, v1) :: rest, k, x, h => by
    by_cases h1 : k1 = k
    · subst h1
      simp only [aerase, if_pos rfl] at h
      exact List.mem_cons_of_mem _ h
    · simp only [aerase, if_neg h1] at h
      rcases List.mem_cons.mp h with h | h
      · simp [h]
      · exact List.mem_cons_of_mem _ (mem_aerase h)

/-- The keys after an insert are the new key plus the old keys. -/
lemma keys_ainsert_mem {α β : Type} [DecidableEq α] :
    ∀ (l : List (α × β)) (k : α) (v : β) (j : α),
      j ∈ (ainsert l k v).map Prod.fst ↔ j = k ∨ j ∈ l.map Prod.fst
  | [], k, v, j => by simp [ainsert]
  | (k1, v1) :: rest, k, v, j => by
    by_cases h1 : k1 = k
    · subst h1
      simp [ainsert]
    · simp only [ainsert, if_neg h1, List.map_cons, List.mem_cons,
        keys_ainsert_mem rest k v j]
      tauto

/-- An overwriting insert preserves distinctness of the keys. -/
lemma keys_ainsert_nodup {α β : Type} [DecidableEq α] :
    ∀ (l : List (α × β)) (k : α) (v : β),
      (l.map Prod.fst).Nodup → ((ainsert l k v).map Prod.fst).Nodup
  | [], k, v, _ => by simp [ainsert]
  | (k1, v1) :: rest, k, v, hnd => by
    have hnd' := List.nodup_cons.mp hnd
    by_cases h1 : k1 = k
    · subst h1
      simpa [ainsert] using hnd
    · simp only [ainsert, if_neg h1, List.map_cons]
      rw [List.nodup_cons]
      refine ⟨?_, keys_ainsert_nodup rest k v hnd'.2⟩
      intro hmem
      rcases (keys_ainsert_mem rest k v k1).mp hmem with h | h
      · exact h1 h
      · exact hnd'.1 h

namespace KidexServer

/-- Unfolding of the index invariant: every child of every node is `childOk`. -/
lemma invariantB_spec {inner : List (Nat × DirectoryIndex)} (hinv : invariantB inner = true) :
    ∀ nd ∈ inner, ∀ pc ∈ nd.2.children, childOk inner pc.2 = true := by
  intro nd hnd pc hpc
  have h1 := (List.all_eq_true.mp hinv) nd hnd
  exact (List.all_eq_true.mp h1) pc hpc

/-- Under the invariant, the watched-child descriptors of an indexed node
are present in the index. -/
lemma childDescriptors_present {inner : List (Nat × DirectoryIndex)}
    (hinv : invariantB inner = true) {desc : Nat} {dir : DirectoryIndex}
    (hdir : alookup inner desc = some dir) :
    ∀ d ∈ childDescriptors dir, (alookup inner d).isSome := by
  intro d hd
  obtain ⟨pc, hpc, hf⟩ := List.mem_filterMap.mp hd
  have hok := invariantB_spec hinv (desc, dir) (alookup_mem hdir) pc hpc
  cases hc : pc.2 with
  | File => rw [hc] at hf; simp at hf
  | Directory od =>
    cases od with
    | none => rw [hc] at hf; simp at hf
    | some d2 =>
      rw [hc] at hf
      simp only [Option.some.injEq] at hf
      subst hf
      rw [hc] at hok
      simpa [childOk] using hok

/-- Under the invariant, the `traverse` loop never hits a missing handle
when every queued descriptor is present, and its resulting slice carries
distinct keys, all present in the index. -/
lemma traverseGo_safe (inner : List (Nat × DirectoryIndex))
    (hinv : invariantB inner = true) :
    ∀ (fuel : Nat) (queue : List Nat) (slice : List (Nat × DirectoryIndex)),
      (∀ d ∈ queue, (alookup inner d).isSome) →
      (slice.map Prod.fst).Nodup →
      (∀ k ∈ slice.map Prod.fst, (alookup inner k).isSome) →
      traverseGo inner fuel queue slice ≠ TravResult.panicked ∧
      (∀ s, traverseGo inner fuel queue slice = TravResult.ok s →
        (s.map Prod.fst).Nodup ∧ ∀ k ∈ s.map Prod.fst, (alookup inner k).isSome) := by
  intro fuel
  induction fuel with
  | zero =>
    intro queue slice hq hnd hpres
    cases queue with
    | nil =>
      refine ⟨by simp [traverseGo], ?_⟩
      intro s hs
      simp only [traverseGo, TravResult.ok.injEq] at hs
      subst hs
      exact ⟨hnd, hpres⟩
    | cons d qs =>
      exact ⟨by simp [traverseGo], by intro s hs; simp [traverseGo] at hs⟩
  | succ fuel ih =>
    intro queue slice hq hnd hpres
    cases queue with
    | nil =>
      refine ⟨by simp [traverseGo], ?_⟩
      intro s hs
      simp only [traverseGo, TravResult.ok.injEq] at hs
      subst hs
      exact ⟨hnd, hpres⟩
    | cons d qs =>
      have hd := hq d (List.mem_cons_self _ _)
      obtain ⟨dir, hdir⟩ := Option.isSome_iff_exists.mp hd
      rw [show traverseGo inner (fuel + 1) (d :: qs) slice =
          traverseGo inner fuel ((childDescriptors dir).reverse ++ qs) (ainsert slice d dir) from
        by simp [traverseGo, hdir]]
      apply ih
      · intro d2 hd2
        rcases List.mem_append.mp hd2 with h2 | h2
        · exact childDescriptors_present hinv hdir d2 (List.mem_reverse.mp h2)
        · exact hq d2 (List.mem_cons_of_mem _ h2)
      · exact keys_ainsert_nodup _ _ _ hnd
      · intro k hk
        rcases (keys_ainsert_mem slice d dir k).mp hk with h2 | h2
        · subst h2; simp [hdir]
        · exact hpres k h2

/-- Removing a list of distinct, present keys from the index succeeds at
every step: no `assert!(remove(..).is_some())` fails. -/
lemma removeAll_isSome :
    ∀ (s inner : List (Nat × DirectoryIndex)),
      (s.map Prod.fst).Nodup →
      (∀ k ∈ s.map Prod.fst, (alookup inner k).isSome) →
      removeAll inner s ≠ none
  | [], inner, _, _ => by simp [removeAll]
  | (k, v) :: rest, inner, hnd, hpres => by
    have hk := hpres k (by simp)
    obtain ⟨v2, hv2⟩ := Option.isSome_iff_exists.mp hk
    rw [show removeAll inner ((k, v) :: rest) = removeAll (aerase inner k) rest from
      by simp [removeAll, hv2]]
    have hnd' := List.nodup_cons.mp hnd
    apply removeAll_isSome
    · exact hnd'.2
    · intro j hj
      have hjk : j ≠ k := by
        intro hh; subst hh
        exact hnd'.1 hj
      rw [alookup_aerase_ne inner k j hjk]
      exact hpres j (by simp [hj])

/-- `childOk` transfers along any key-preserving index transformation. -/
lemma childOk_mono {inner inner2 : List (Nat × DirectoryIndex)}
    (hkeys : ∀ d : Nat, (alookup inner d).isSome → (alookup inner2 d).isSome) :
    ∀ c : ChildIndex, childOk inner c = true → childOk inner2 c = true := by
  intro c h
  cases c with
  | File => rfl
  | Directory od =>
    cases od with
    | none => rfl
    | some d => simpa [childOk] using hkeys d (by simpa [childOk] using h)

/-- Erasing a child from one node's children map preserves the key set. -/
lemma eraseChild_lookup (inner : List (Nat × DirectoryIndex)) (wd : Nat) (path : String) (j : Nat) :
    (alookup (eraseChild inner wd path) j).isSome = (alookup inner j).isSome := by
  unfold eraseChild
  cases hw : alookup inner wd with
  | none => rfl
  | some dir =>
    rw [alookup_ainsert]
    by_cases hj : j = wd
    · subst hj; simp [hw]
    · simp [hj]

/-- The index invariant survives erasing one child from one node. -/
lemma invariantB_eraseChild {inner : List (Nat × DirectoryIndex)} (wd : Nat) (path : String)
    (hinv : invariantB inner = true) :
    invariantB (eraseChild inner wd path) = true := by
  have htrans : ∀ c, childOk inner c = true → childOk (eraseChild inner wd path) c = true :=
    childOk_mono (fun d hd => by rw [eraseChild_lookup]; exact hd)
  rw [invariantB, List.all_eq_true]
  intro nd hnd
  rw [List.all_eq_true]
  intro pc hpc
  rw [eraseChild] at hnd
  cases hw : alookup inner wd with
  | none =>
    rw [hw] at hnd
    exact htrans _ (invariantB_spec hinv nd hnd pc hpc)
  | some dir =>
    rw [hw] at hnd
    rcases mem_ainsert hnd with h | h
    · subst h
      have hpc2 : pc ∈ dir.children := mem_aerase hpc
      exact htrans _ (invariantB_spec hinv (wd, dir) (alookup_mem hw) pc hpc2)
    · exact htrans _ (invariantB_spec hinv nd h pc hpc)

end KidexServer

/-- Claim C6: under the invariant that every `Directory { Some(h) }` child
has `h` present in the index, removing a watched directory child only
visits handles present in the index: the `traverse` inside `remove_index`
(running on the index with the child already removed from its parent)
never panics on a lookup, and removing every visited handle from the index
succeeds, so the checked assertion never fails. -/
theorem c6_remove_watched_child_safe :
    ∀ (inner : List (Nat × KidexServer.DirectoryIndex)) (fuel wd : Nat) (path : String)
      (dir : KidexServer.DirectoryIndex) (d : Nat),
      KidexServer.invariantB inner = true →
      alookup inner wd = some dir →
      alookup dir.children path = some (KidexServer.ChildIndex.Directory (some d)) →
      KidexServer.traverseGo (KidexServer.eraseChild inner wd path) fuel [d] [] ≠
        KidexServer.TravResult.panicked ∧
      (∀ s, KidexServer.traverseGo (KidexServer.eraseChild inner wd path) fuel [d] [] =
          KidexServer.TravResult.ok s →
        KidexServer.removeAll (KidexServer.eraseChild inner wd path) s ≠ none) := by
  intro inner fuel wd path dir d hinv hwd hchild
  have hinv1 : KidexServer.invariantB (KidexServer.eraseChild inner wd path) = true :=
    KidexServer.invariantB_eraseChild wd path hinv
  have hdpres : (alookup inner d).isSome := by
    have hok := KidexServer.invariantB_spec hinv (wd, dir) (alookup_mem hwd)
      (path, KidexServer.ChildIndex.Directory (some d)) (alookup_mem hchild)
    simpa [KidexServer.childOk] using hok
  have hdpres1 : (alookup (KidexServer.eraseChild inner wd path) d).isSome := by
    rw [KidexServer.eraseChild_lookup]; exact hdpres
  have hsafe := KidexServer.traverseGo_safe (KidexServer.eraseChild inner wd path) hinv1 fuel [d] []
    (by intro x hx; simp only [List.mem_singleton] at hx; subst hx; exact hdpres1)
    (by simp) (by simp)
  refine ⟨hsafe.1, ?_⟩
  intro s hs
  obtain ⟨hnd, hpres⟩ := hsafe.2 s hs
  exact KidexServer.removeAll_isSome s (KidexServer.eraseChild inner wd path) hnd hpres

/-- Witness for C6 at a concrete two-node index. -/
theorem c6_witness :
    KidexServer.invariantB witInner = true ∧
    alookup witInner 0 = some witNode0 ∧
    alookup witNode0.children "sub" = some (KidexServer.ChildIndex.Directory (some 1)) ∧
    KidexServer.traverseGo (KidexServer.eraseChild witInner 0 "sub") 5 [1] [] ≠
      KidexServer.TravResult.panicked :=
  ⟨rfl, rfl, rfl, (c6_remove_watched_child_safe witInner 5 0 "sub" witNode0 1 rfl rfl rfl).1⟩

/-- Claim C9, amended: the pathed `GetIndex` replies `NotFound` exactly
when no node's stored path *field* equals the requested path — that field
is the configured absolute path only for a root node and the bare segment
for every other node, so the match is not restricted to configured roots
as the claim states; otherwise, when the traversal of the matched node
yields a slice, the reply lists exactly one entry per child of each
visited node, with the resolved path of the child's parent node joined to
the child's own segment. -/
theorem c9_get_index_pathed :
    (∀ (inner : List (Nat × KidexServer.DirectoryIndex)) (fuel : Nat) (p : String),
      KidexServer.getIndexPathed inner fuel p =
          KidexServer.GetIndexResult.resp IpcResponse.NotFound ↔
        ∀ nd ∈ inner, nd.2.path ≠ p) ∧
    (∀ (inner : List (Nat × KidexServer.DirectoryIndex)) (fuel : Nat) (p : String)
        (desc : Nat) (dir0 : KidexServer.DirectoryIndex)
        (slice : List (Nat × KidexServer.DirectoryIndex)),
      inner.find? (fun nd => nd.2.path == p) = some (desc, dir0) →
      KidexServer.traverseGo inner fuel [desc] [] = KidexServer.TravResult.ok slice →
      ∃ es, KidexServer.getIndexPathed inner fuel p =
          KidexServer.GetIndexResult.resp (IpcResponse.Index es) ∧
        ∀ e, e ∈ es ↔ ∃ nd ∈ slice, ∃ pc ∈ nd.2.children,
          e = ⟨mergePaths (KidexServer.getPathD inner fuel nd.1) pc.1,
               KidexServer.isDirChild pc.2⟩) := by
  constructor
  · intro inner fuel p
    cases hf : inner.find? (fun nd => nd.2.path == p) with
    | none =>
      simp only [KidexServer.getIndexPathed, hf]
      simp only [List.find?_eq_none] at hf
      constructor
      · intro _ nd hnd
        simpa using hf nd hnd
      · intro _; trivial
    | some nd0 =>
      obtain ⟨desc, dir0⟩ := nd0
      have hmem := List.mem_of_find?_eq_some hf
      have hpath : dir0.path = p := by simpa using List.find?_some hf
      simp only [KidexServer.getIndexPathed, hf]
      constructor
      · intro hcontra
        exfalso
        cases htr : KidexServer.traverseGo inner fuel [desc] [] <;>
          rw [htr] at hcontra <;> simp at hcontra
      · intro hall
        exact absurd hpath (hall (desc, dir0) hmem)
  · intro inner fuel p desc dir0 slice hf htr
    refine ⟨slice.flatMap (KidexServer.nodeEntries inner fuel), ?_, ?_⟩
    · simp only [KidexServer.getIndexPathed, hf, htr]
    · intro e
      rw [List.mem_flatMap]
      constructor
      · rintro ⟨nd, hnd, he⟩
        simp only [KidexServer.nodeEntries, List.mem_map] at he
        obtain ⟨pc, hpc, hpe⟩ := he
        exact ⟨nd, hnd, pc, hpc, hpe.symm⟩
      · rintro ⟨nd, hnd, pc, hpc, hpe⟩
        refine ⟨nd, hnd, ?_⟩
        simp only [KidexServer.nodeEntries, List.mem_map]
        exact ⟨pc, hpc, hpe.symm⟩

/-- Witness for C9 at a concrete two-node index. -/
theorem c9_witness :
    (List.find? (fun nd => nd.2.path == "/r") witInner = some (0, witNode0)) ∧
    KidexServer.traverseGo witInner 5 [0] [] =
      KidexServer.TravResult.ok [(0, witNode0), (1, witNode1)] ∧
    ∃ es, KidexServer.getIndexPathed witInner 5 "/r" =
        KidexServer.GetIndexResult.resp (IpcResponse.Index es) ∧
      ∀ e, e ∈ es ↔ ∃ nd ∈ [(0, witNode0), (1, witNode1)], ∃ pc ∈ nd.2.children,
        e = ⟨mergePaths (KidexServer.getPathD witInner 5 nd.1) pc.1,
             KidexServer.isDirChild pc.2⟩ :=
  ⟨rfl, rfl, c9_get_index_pathed.2 witInner 5 "/r" 0 witNode0 [(0, witNode0), (1, witNode1)] rfl rfl⟩

namespace KidexClient

/-- The spec-modelled descending insert permutes the inserted element in. -/
lemma insertDescStable_perm (p : Int × IndexEntry) :
    ∀ (l : List (Int × IndexEntry)), (insertDescStable p l).Perm (p :: l)
  | [] => List.Perm.refl _
  | q :: rest => by
    unfold insertDescStable
    by_cases h : p.1 > q.1
    · simp [h]
    · simp only [h, if_false]
      exact ((insertDescStable_perm p rest).cons q).trans (List.Perm.swap p q rest)

/-- The spec-modelled descending insert preserves descending order. -/
lemma insertDescStable_sorted {p : Int × IndexEntry} :
    ∀ {l : List (Int × IndexEntry)},
      List.Pairwise (fun a b : Int × IndexEntry => b.1 ≤ a.1) l →
      List.Pairwise (fun a b : Int × IndexEntry => b.1 ≤ a.1) (insertDescStable p l)
  | [], _ => by simp [insertDescStable]
  | q :: rest, h => by
    obtain ⟨hq, hrest⟩ := List.pairwise_cons.mp h
    unfold insertDescStable
    by_cases hpq : p.1 > q.1
    · simp only [hpq, if_true]
      rw [List.pairwise_cons]
      refine ⟨?_, h⟩
      intro x hx
      rcases List.mem_cons.mp hx with hx | hx
      · subst hx; exact le_of_lt hpq
      · exact le_trans (hq x hx) (le_of_lt hpq)
    · simp only [hpq, if_false]
      rw [List.pairwise_cons]
      refine ⟨?_, insertDescStable_sorted hrest⟩
      intro x hx
      rcases List.mem_cons.mp (((insertDescStable_perm p rest).mem_iff).mp hx) with hx2 | hx2
      · subst hx2; exact le_of_not_lt hpq
      · exact hq x hx2

end KidexClient

namespace KidexClient

/-- Folding descending inserts from a descending accumulator stays descending. -/
lemma foldl_insertDesc_sorted :
    ∀ (xs acc : List (Int × IndexEntry)),
      List.Pairwise (fun a b : Int × IndexEntry => b.1 ≤ a.1) acc →
      List.Pairwise (fun a b : Int × IndexEntry => b.1 ≤ a.1)
        (xs.foldl (fun a p => insertDescStable p a) acc)
  | [], _, h => h
  | x :: xs, acc, h =>
    foldl_insertDesc_sorted xs (insertDescStable x acc) (insertDescStable_sorted h)

/-- Folding descending inserts permutes accumulator and input together. -/
lemma foldl_insertDesc_perm :
    ∀ (xs acc : List (Int × IndexEntry)),
      (xs.foldl (fun a p => insertDescStable p a) acc).Perm (acc ++ xs)
  | [], acc => by simp
  | x :: xs, acc => by
    have h1 := foldl_insertDesc_perm xs (insertDescStable x acc)
    have h2 : (insertDescStable x acc ++ xs).Perm ((x :: acc) ++ xs) :=
      (insertDescStable_perm x acc).append_right xs
    exact (h1.trans h2).trans List.perm_middle.symm

/-- The spec-modelled descending sort is descending. -/
lemma sortDescStable_sorted (xs : List (Int × IndexEntry)) :
    List.Pairwise (fun a b : Int × IndexEntry => b.1 ≤ a.1) (sortDescStable xs) :=
  foldl_insertDesc_sorted xs [] (by simp)

/-- The spec-modelled descending sort permutes its input. -/
lemma sortDescStable_perm (xs : List (Int × IndexEntry)) :
    (sortDescStable xs).Perm xs := by
  simpa using foldl_insertDesc_perm xs []

/-- One running-top-N step preserves descending order. -/
lemma pickStep_sorted {n : Nat} {acc : List (Int × IndexEntry)} (p : Int × IndexEntry)
    (h : List.Pairwise (fun a b : Int × IndexEntry => b.1 ≤ a.1) acc) :
    List.Pairwise (fun a b : Int × IndexEntry => b.1 ≤ a.1)
      (if acc.length = n ∧ p.1 < ((acc.getLast?).map Prod.fst).getD p.1 then acc
       else (insertDescStable p acc).take n) := by
  split
  · exact h
  · exact List.Pairwise.sublist (List.take_sublist n _) (insertDescStable_sorted h)

/-- The running-top-N fold keeps the list in descending order. -/
lemma pickFold_sorted (n : Nat) :
    ∀ (xs acc : List (Int × IndexEntry)),
      List.Pairwise (fun a b : Int × IndexEntry => b.1 ≤ a.1) acc →
      List.Pairwise (fun a b : Int × IndexEntry => b.1 ≤ a.1)
        (xs.foldl (fun a p =>
          if a.length = n ∧ p.1 < ((a.getLast?).map Prod.fst).getD p.1 then a
          else (insertDescStable p a).take n) acc)
  | [], _, h => h
  | x :: xs, _, h => pickFold_sorted n xs _ (pickStep_sorted x h)

/-- The running-top-N fold keeps at most N entries. -/
lemma pickFold_length (n : Nat) :
    ∀ (xs acc : List (Int × IndexEntry)),
      acc.length ≤ n →
      (xs.foldl (fun a p =>
        if a.length = n ∧ p.1 < ((a.getLast?).map Prod.fst).getD p.1 then a
        else (insertDescStable p a).take n) acc).length ≤ n
  | [], acc, h => h
  | x :: xs, acc, h => by
    apply pickFold_length n xs
    dsimp only
    split
    · exact h
    · simp [Nat.min_le_left]

/-- Every entry the running-top-N fold retains came from the accumulator
or the input. -/
lemma pickFold_subset (n : Nat) :
    ∀ (xs acc : List (Int × IndexEntry)) (y : Int × IndexEntry),
      y ∈ xs.foldl (fun a p =>
          if a.length = n ∧ p.1 < ((a.getLast?).map Prod.fst).getD p.1 then a
          else (insertDescStable p a).take n) acc →
      y ∈ acc ∨ y ∈ xs
  | [], acc, y, h => Or.inl h
  | x :: xs, acc, y, h => by
    rcases pickFold_subset n xs _ y h with h2 | h2
    · dsimp only at h2
      by_cases hc : acc.length = n ∧ x.1 < ((acc.getLast?).map Prod.fst).getD x.1
      · rw [if_pos hc] at h2; exact Or.inl h2
      · rw [if_neg hc] at h2
        have h3 := (List.take_sublist n _).mem h2
        rcases List.mem_cons.mp (((insertDescStable_perm x acc).mem_iff).mp h3) with h4 | h4
        · subst h4; exact Or.inr (List.mem_cons_self _ _)
        · exact Or.inl h4
    · exact Or.inr (List.mem_cons_of_mem _ h2)

/-- `pick_top_entries` returns a list in descending score order. -/
lemma pick_top_sorted (xs : List (Int × IndexEntry)) (n : Nat) :
    List.Pairwise (fun a b : Int × IndexEntry => b.1 ≤ a.1) (pick_top_entries xs n) := by
  unfold pick_top_entries
  split
  · exact sortDescStable_sorted xs
  · exact pickFold_sorted n xs [] (by simp)

/-- `pick_top_entries` returns at most N entries. -/
lemma pick_top_length (xs : List (Int × IndexEntry)) (n : Nat) :
    (pick_top_entries xs n).length ≤ n := by
  unfold pick_top_entries
  split
  · next h => exact le_trans (le_of_eq (sortDescStable_perm xs).length_eq) h
  · exact pickFold_length n xs [] (by simp)

/-- `pick_top_entries` returns only input entries. -/
lemma pick_top_subset {xs : List (Int × IndexEntry)} {n : Nat} {y : Int × IndexEntry}
    (h : y ∈ pick_top_entries xs n) : y ∈ xs := by
  unfold pick_top_entries at h
  revert h
  split
  · intro h; exact ((sortDescStable_perm xs).mem_iff).mp h
  · intro h
    rcases pickFold_subset n xs [] y h with h2 | h2
    · simp at h2
    · exact h2

end KidexClient

namespace KidexClient

/-- A pair surviving the scoring `filterMap` carries its entry's score,
which is strictly positive, and an entry of the input. -/
lemma mem_scored {g : IndexEntry → Int} {es : List IndexEntry} {p : Int × IndexEntry}
    (hp : p ∈ es.filterMap (fun e => if g e > 0 then some (g e, e) else none)) :
    p.1 = g p.2 ∧ 0 < p.1 ∧ p.2 ∈ es := by
  obtain ⟨e, he, hsome⟩ := List.mem_filterMap.mp hp
  by_cases hg : g e > 0
  · rw [if_pos hg] at hsome
    injection hsome with h
    subst h
    exact ⟨rfl, hg, he⟩
  · rw [if_neg hg] at hsome
    cases hsome

/-- Dropping the scores from the surviving pairs gives exactly the entries
with strictly positive score. -/
lemma map_snd_scored (g : IndexEntry → Int) (es : List IndexEntry) :
    (es.filterMap (fun e => if g e > 0 then some (g e, e) else none)).map Prod.snd =
      es.filter (fun e => decide (0 < g e)) := by
  induction es with
  | nil => rfl
  | cons e t ih =>
    by_cases hg : g e > 0
    · simp [List.filterMap_cons, List.filter_cons, hg, ih]
    · simp [List.filterMap_cons, List.filter_cons, hg, ih]

/-- A score-ascending pair list maps to a score-ascending entry list. -/
lemma sorted_scores {L : List (Int × IndexEntry)} {g : IndexEntry → Int}
    (hL : ∀ p ∈ L, p.1 = g p.2)
    (hp : List.Pairwise (fun a b : Int × IndexEntry => a.1 ≤ b.1) L) :
    List.Sorted (· ≤ ·) ((L.map Prod.snd).map g) := by
  rw [List.map_map, List.Sorted, List.pairwise_map]
  exact hp.imp_of_mem (fun ha hb hr => by
    simp only [Function.comp]
    rw [← hL _ ha, ← hL _ hb]
    exact hr)

end KidexClient

open KidexClient in
/-- Claim C3, amended: without a limit, `filter` returns exactly the
entries with strictly positive score, sorted in ascending score order;
with a limit N it returns at most N surviving entries, again in ascending
score order (the code reverses the descending top-N list, so the result is
lowest-first, not highest-first). -/
theorem c3_amended_filter_order :
    (∀ (es : List IndexEntry) (q : Query) (fmt : OutputFormat) (root : Option String),
      (KidexClient.filter es ⟨q, fmt, root, none⟩).Perm
          (es.filter (fun e => decide (0 < q.calc_score e.path e.directory))) ∧
        List.Sorted (· ≤ ·) ((KidexClient.filter es ⟨q, fmt, root, none⟩).map
          (fun e => q.calc_score e.path e.directory))) ∧
    (∀ (es : List IndexEntry) (q : Query) (fmt : OutputFormat) (root : Option String) (n : Nat),
      (KidexClient.filter es ⟨q, fmt, root, some n⟩).length ≤ n ∧
        (∀ e ∈ KidexClient.filter es ⟨q, fmt, root, some n⟩,
          e ∈ es.filter (fun e => decide (0 < q.calc_score e.path e.directory))) ∧
        List.Sorted (· ≤ ·) ((KidexClient.filter es ⟨q, fmt, root, some n⟩).map
          (fun e => q.calc_score e.path e.directory))) := by
  constructor
  · intro es q fmt root
    simp only [KidexClient.filter]
    constructor
    · have hperm := (List.perm_insertionSort scoreLE
        (es.filterMap (fun e => if q.calc_score e.path e.directory > 0 then
          some (q.calc_score e.path e.directory, e) else none))).map Prod.snd
      rw [map_snd_scored (fun e => q.calc_score e.path e.directory) es] at hperm
      exact hperm
    · apply sorted_scores
      · intro p hp
        have hp2 := ((List.perm_insertionSort scoreLE _).mem_iff).mp hp
        exact (mem_scored (g := fun e => q.calc_score e.path e.directory) hp2).1
      · exact List.sorted_insertionSort scoreLE _
  · intro es q fmt root n
    simp only [KidexClient.filter]
    refine ⟨?_, ?_, ?_⟩
    · simpa using pick_top_length _ n
    · intro e he
      simp only [List.mem_map, List.mem_reverse] at he
      obtain ⟨p, hp, hpe⟩ := he
      have hpx := pick_top_subset hp
      obtain ⟨hps, hpos, hmem⟩ :=
        mem_scored (g := fun e => q.calc_score e.path e.directory) hpx
      rw [List.mem_filter]
      subst hpe
      exact ⟨hmem, by simpa [← hps] using hpos⟩
    · apply sorted_scores
      · intro p hp
        rw [List.mem_reverse] at hp
        exact (mem_scored (g := fun e => q.calc_score e.path e.directory)
          (pick_top_subset hp)).1
      · rw [List.pairwise_reverse]
        exact pick_top_sorted _ n

/-- Claim C3, counterexample to the claim as stated: with limit 2 the two
surviving entries come back with the strictly lower-scored entry first,
so the limited result is not in descending score order. -/
theorem c3_counterexample_limit_order :
    KidexClient.filter [⟨"/d/foo.txt", false⟩, ⟨"/d/xfo.txt", false⟩]
        ⟨⟨[QueryParameter.Keyword ⟨"fo", false⟩], CaseOption.Match⟩,
          OutputFormat.Json, none, some 2⟩ =
      [⟨"/d/xfo.txt", false⟩, ⟨"/d/foo.txt", false⟩] ∧
    Query.calc_score ⟨[QueryParameter.Keyword ⟨"fo", false⟩], CaseOption.Match⟩
        "/d/xfo.txt" false <
      Query.calc_score ⟨[QueryParameter.Keyword ⟨"fo", false⟩], CaseOption.Match⟩
        "/d/foo.txt" false :=
  ⟨by decide, by decide⟩

/-- Witness for the amended C3 theorem at the concrete two-entry input. -/
theorem c3_witness :
    (⟨"/d/xfo.txt", false⟩ : IndexEntry) ∈
      KidexClient.filter [⟨"/d/foo.txt", false⟩, ⟨"/d/xfo.txt", false⟩]
        ⟨⟨[QueryParameter.Keyword ⟨"fo", false⟩], CaseOption.Match⟩,
          OutputFormat.Json, none, some 2⟩ ∧
    (⟨"/d/xfo.txt", false⟩ : IndexEntry) ∈
      ([⟨"/d/foo.txt", false⟩, ⟨"/d/xfo.txt", false⟩] : List IndexEntry).filter
        (fun e => decide (0 < Query.calc_score
          ⟨[QueryParameter.Keyword ⟨"fo", false⟩], CaseOption.Match⟩ e.path e.directory)) :=
  ⟨by decide,
    (c3_amended_filter_order.2 [⟨"/d/foo.txt", false⟩, ⟨"/d/xfo.txt", false⟩]
        ⟨[QueryParameter.Keyword ⟨"fo", false⟩], CaseOption.Match⟩
        OutputFormat.Json none 2).2.1
      ⟨"/d/xfo.txt", false⟩ (by decide)⟩

/-- Claim C9, counterexample to the claim as stated: the request "sub"
equals no node's configured path (the only configured root of `witInner`
is "/r"; "sub" is merely the stored segment of the non-root subdirectory
node), so the claim requires a `NotFound` reply — but the handler matches
any node's stored path field, finds the subdirectory node, and returns its
child as an entry instead. -/
theorem c9_counterexample_segment_match :
    witInner.all (fun nd => !(nd.2.parent == none && nd.2.path == "sub")) = true ∧
    KidexServer.getIndexPathed witInner 5 "sub" =
      KidexServer.GetIndexResult.resp (IpcResponse.Index [⟨"/r/sub/g.txt", false⟩]) ∧
    KidexServer.getIndexPathed witInner 5 "sub" ≠
      KidexServer.GetIndexResult.resp IpcResponse.NotFound :=
  ⟨by decide, by decide, by decide⟩
